import Mathlib

/-!
Verification of the recipient-resolution and message-normalization core of a
voice-messaging backend.  The program text lives in two Python modules:
`backend/main.py` (contact directory, recipient resolution, addressing-prefix
stripping) and `backend/grammar_fixer.py` (AI correction adapter with its
deterministic fallback: basic text cleanup and heuristic recipient
extraction).

Modelling conventions:
* a Python `str` is a list of Unicode code points, `Str := List Nat`
  (case mapping and the character classes of the regexes are modelled for
  the ASCII range, which covers every literal the program manipulates);
* Python dicts with string keys are association lists in insertion order,
  with assignment updating the first matching key in place;
* the fixed regular expressions of the source are translated into a small
  backtracking matcher (`RE` / `runRE`) whose alternatives are produced in
  the same preference order the Python `re` engine explores, so the first
  remainder of `runRE` is exactly the match `re.sub` or `re.search` picks;
* `json.loads` and the HTTP client are external collaborators: the former
  is a parameter of the adapter model, the latter an `Except` outcome.
-/

/-- Python strings as lists of code points. -/
abbrev Str := List Nat

/-- Code points of a Lean string literal, for stating concrete examples. -/
def codes (s : String) : Str := s.toList.map Char.toNat

/-- ASCII lower-casing of one code point (`str.lower` on the ASCII range). -/
def lowerNat (c : Nat) : Nat := if 65 ≤ c ∧ c ≤ 90 then c + 32 else c

/-- ASCII upper-casing of one code point (`str.upper` on the ASCII range). -/
def upperNat (c : Nat) : Nat := if 97 ≤ c ∧ c ≤ 122 then c - 32 else c

/-- Lower-case a whole string. -/
def lowerS (s : Str) : Str := s.map lowerNat

/-- Characters removed by Python `str.strip()` and matched by the regex
class `\s` (ASCII part: space, tab, newline, carriage return, vertical tab,
form feed). -/
def pyWsB (c : Nat) : Bool := c = 32 ∨ c = 9 ∨ c = 10 ∨ c = 13 ∨ c = 11 ∨ c = 12

/-- Characters matched by the regex class `\w` (ASCII part: letters, digits,
underscore). -/
def pyWordB (c : Nat) : Bool :=
  (48 ≤ c ∧ c ≤ 57) ∨ (65 ≤ c ∧ c ≤ 90) ∨ (97 ≤ c ∧ c ≤ 122) ∨ c = 95

/-- Python `str.strip()`: drop leading and trailing whitespace. -/
def trimWs (s : Str) : Str :=
  ((s.dropWhile pyWsB).reverse.dropWhile pyWsB).reverse

/-- First value stored under a key in an association list (Python dict
lookup). -/
def alookup (m : List (Str × α)) (k : Str) : Option α :=
  match m with
  | [] => none
  | (k', v) :: t => if k' = k then some v else alookup t k

/-- Python dict assignment `m[k] = v`: replace the first binding of `k` in
place, or append a new binding. -/
def dinsert (m : List (Str × α)) (k : Str) (v : α) : List (Str × α) :=
  match m with
  | [] => [(k, v)]
  | (k', v') :: t => if k' = k then (k, v) :: t else (k', v') :: dinsert t k v

/-- Does `pat` occur at the head of `s` (exact code-point equality)? -/
def startsWithL (pat s : Str) : Bool :=
  match pat, s with
  | [], _ => true
  | _ :: _, [] => false
  | a :: as, b :: bs => a = b ∧ startsWithL as bs

/-- Python substring test `pat in s` (exact match at any position). -/
def substrB (pat : Str) : Str → Bool
  | [] => startsWithL pat []
  | s@(_ :: t) => startsWithL pat s || substrB pat t

/-- Case-insensitive anchored literal match, as the `re` engine performs it
for an `(?i)` literal. -/
def ciStarts (pat s : Str) : Bool :=
  match pat, s with
  | [], _ => true
  | _ :: _, [] => false
  | a :: as, b :: bs => lowerNat a = lowerNat b ∧ ciStarts as bs

/-! ### A small backtracking regex matcher

The source uses a handful of fixed patterns built from case-insensitive
literals, the classes `\s` and `\w`, greedy `+`/`*` on a class, alternation
and greedy `?`.  `runRE e s` returns the list of possible remainders of `s`
after matching `e` at its start, in exactly the preference order Python
backtracking explores; hence the head of the list is the remainder of the
match `re.sub(..., count=1)` with a `^`-anchored pattern removes. -/

inductive RE where
  | lit : Str → RE
  | plusCls : (Nat → Bool) → RE
  | starCls : (Nat → Bool) → RE
  | seq : RE → RE → RE
  | alt : RE → RE → RE
  | opt : RE → RE

/-- Remainders after consuming `k`, `k-1`, ..., `1` characters of `s`
(the preference order of a greedy `+` whose maximal run has length `k`). -/
def gDrops (s : Str) (k : Nat) : List Str :=
  (List.range k).map (fun i => s.drop (k - i))

/-- Flat concatenation of the continuations of every remainder, keeping
preference order. -/
def seqRun (f : Str → List Str) : List Str → List Str
  | [] => []
  | t :: ts => f t ++ seqRun f ts

/-- Run a pattern at the start of `s`; all possible remainders in
backtracking preference order. -/
def runRE : RE → Str → List Str
  | .lit l, s => if ciStarts l s then [s.drop l.length] else []
  | .plusCls p, s => gDrops s (s.takeWhile p).length
  | .starCls p, s => gDrops s (s.takeWhile p).length ++ [s]
  | .seq a b, s => seqRun (runRE b) (runRE a s)
  | .alt a b, s => runRE a s ++ runRE b s
  | .opt a, s => runRE a s ++ [s]

/-- Patterns that can never fail (every constituent is optional or an empty
literal); their remainder list is never empty. -/
def totalRE : RE → Bool
  | .lit l => l.isEmpty
  | .plusCls _ => false
  | .starCls _ => true
  | .seq a b => totalRE a && totalRE b
  | .alt a b => totalRE a || totalRE b
  | .opt _ => true

/-- `re.sub(pattern, "", s, count=1)` for a `^`-anchored pattern: remove the
preferred match if there is one, otherwise leave `s` unchanged. -/
def reSubOnce (e : RE) (s : Str) : Str :=
  match runRE e s with
  | [] => s
  | r :: _ => r

theorem mem_gDrops {s : Str} {k : Nat} {r : Str} (h : r ∈ gDrops s k) :
    ∃ n, r = s.drop n := by
  simp only [gDrops, List.mem_map, List.mem_range] at h
  obtain ⟨i, _, hi⟩ := h
  exact ⟨k - i, hi.symm⟩

theorem mem_seqRun {f : Str → List Str} {l : List Str} {r : Str}
    (h : r ∈ seqRun f l) : ∃ t ∈ l, r ∈ f t := by
  induction l with
  | nil => simp [seqRun] at h
  | cons x xs ih =>
    simp only [seqRun, List.mem_append] at h
    rcases h with h | h
    · exact ⟨x, List.mem_cons_self x xs, h⟩
    · obtain ⟨t, ht, hr⟩ := ih h
      exact ⟨t, List.mem_cons_of_mem x ht, hr⟩

/-- Every remainder produced by the matcher is a suffix of the input. -/
theorem runRE_suffix : ∀ (e : RE) (s r : Str), r ∈ runRE e s → r <:+ s := by
  intro e
  induction e with
  | lit l =>
    intro s r h
    simp only [runRE] at h
    split at h
    · simp only [List.mem_singleton] at h
      exact h ▸ ⟨s.take l.length, List.take_append_drop _ s⟩
    · simp at h
  | plusCls p =>
    intro s r h
    obtain ⟨n, rfl⟩ := mem_gDrops h
    exact ⟨s.take n, List.take_append_drop n s⟩
  | starCls p =>
    intro s r h
    simp only [runRE, List.mem_append, List.mem_singleton] at h
    rcases h with h | rfl
    · obtain ⟨n, rfl⟩ := mem_gDrops h
      exact ⟨s.take n, List.take_append_drop n s⟩
    · exact List.suffix_refl _
  | seq a b iha ihb =>
    intro s r h
    simp only [runRE] at h
    obtain ⟨t, ht, hr⟩ := mem_seqRun h
    exact (ihb t r hr).trans (iha s t ht)
  | alt a b iha ihb =>
    intro s r h
    simp only [runRE, List.mem_append] at h
    rcases h with h | h
    · exact iha s r h
    · exact ihb s r h
  | opt a iha =>
    intro s r h
    simp only [runRE, List.mem_append, List.mem_singleton] at h
    rcases h with h | rfl
    · exact iha s r h
    · exact List.suffix_refl _

theorem seqRun_ne_nil {f : Str → List Str} {l : List Str} {x : Str}
    (hx : x ∈ l) (hf : f x ≠ []) : seqRun f l ≠ [] := by
  induction l with
  | nil => simp at hx
  | cons y ys ih =>
    simp only [seqRun]
    rcases List.mem_cons.mp hx with rfl | hx'
    · intro hc
      exact hf (List.append_eq_nil.mp hc).1
    · intro hc
      exact ih hx' (List.append_eq_nil.mp hc).2

/-- A total pattern always yields at least one remainder. -/
theorem runRE_total_ne_nil : ∀ (e : RE), totalRE e = true → ∀ s, runRE e s ≠ [] := by
  intro e
  induction e with
  | lit l =>
    intro h s
    simp only [totalRE, List.isEmpty_iff] at h
    subst h
    simp [runRE, ciStarts]
  | plusCls p => intro h; simp [totalRE] at h
  | starCls p => intro _ s; simp [runRE]
  | seq a b iha ihb =>
    intro h s
    simp only [totalRE, Bool.and_eq_true] at h
    simp only [runRE]
    have ha := iha h.1 s
    obtain ⟨x, xs, hx⟩ := List.exists_cons_of_ne_nil ha
    exact seqRun_ne_nil (hx ▸ List.mem_cons_self x xs) (ihb h.2 x)
  | alt a b iha ihb =>
    intro h s
    simp only [totalRE, Bool.or_eq_true] at h
    simp only [runRE]
    intro hc
    rcases h with h | h
    · exact iha h s (List.append_eq_nil.mp hc).1
    · exact ihb h s (List.append_eq_nil.mp hc).2
  | opt a iha =>
    intro _ s
    simp only [runRE]
    intro hc
    simpa using congrArg List.length hc

/-- One-shot anchored substitution only ever removes a prefix. -/
theorem reSubOnce_suffix (e : RE) (s : Str) : reSubOnce e s <:+ s := by
  unfold reSubOnce
  split
  · exact List.suffix_refl s
  · next r rs heq =>
    exact runRE_suffix e s r (by rw [heq]; exact List.mem_cons_self r rs)

/-! ### `grammar_fixer.py`: basic cleanup (the Text Normalizer)

`GrammarFixer._basic_cleanup`: strip, capitalize the first character,
append a period when no terminal punctuation is present, then run the fixed
typo table.  Each table entry is gated on a space-padded lower-cased copy of
the processed text computed once before the loop, and when the gate fires
the bare token is replaced everywhere, case-insensitively, by `re.sub`. -/

/-- Leftmost, non-overlapping, case-insensitive global replacement:
`re.sub(re.escape(token), repl, s, flags=re.IGNORECASE)` for a literal
`token`.  Structured with explicit fuel; `fuel = s.length` is enough because
each step consumes at least one character of a non-empty token match or one
plain character. -/
def raGo (token repl : Str) : Nat → Str → Str
  | _, [] => []
  | 0, s => s
  | fuel + 1, s@(c :: cs) =>
    if ciStarts token s then repl ++ raGo token repl fuel (s.drop token.length)
    else c :: raGo token repl fuel cs

/-- Global case-insensitive literal replacement (the `token = []` guard is
never exercised: every token of the fixed table is non-empty). -/
def replaceAllCI (token repl s : Str) : Str :=
  if token.isEmpty then s else raGo token repl s.length s

/-- The fixed ordered typo table of `_basic_cleanup`, entries exactly as in
the source: keys and values carry one space of padding on each side. -/
def replacements : List (Str × Str) :=
  [ (codes " im ", codes " I\x27m "),
    (codes " i ", codes " I "),
    (codes " dont ", codes " don\x27t "),
    (codes " cant ", codes " can\x27t "),
    (codes " wont ", codes " won\x27t "),
    (codes " didnt ", codes " didn\x27t "),
    (codes " doesnt ", codes " doesn\x27t "),
    (codes " isnt ", codes " isn\x27t "),
    (codes " arent ", codes " aren\x27t "),
    (codes " wasnt ", codes " wasn\x27t "),
    (codes " werent ", codes " weren\x27t "),
    (codes " youre ", codes " you\x27re "),
    (codes " theyre ", codes " they\x27re "),
    (codes " hes ", codes " he\x27s "),
    (codes " shes ", codes " she\x27s "),
    (codes " its ", codes " it\x27s "),
    (codes " weve ", codes " we\x27ve "),
    (codes " ive ", codes " I\x27ve "),
    (codes " teh ", codes " the "),
    (codes " taht ", codes " that "),
    (codes " wiht ", codes " with "),
    (codes " tommorow ", codes " tomorrow "),
    (codes " tommorrow ", codes " tomorrow ") ]

/-- The pre-replacement stage of `_basic_cleanup`: strip, capitalize the
first character, append `.` when the last character is none of `. ! ?`. -/
def preprocess (s : Str) : Str :=
  let t := trimWs s
  let t2 := match t with
    | [] => []
    | c :: r => upperNat c :: r
  if t2 ≠ [] ∧ ¬(t2.getLast? = some 46 ∨ t2.getLast? = some 33 ∨ t2.getLast? = some 63)
  then t2 ++ [46] else t2

/-- The padded lower-cased copy the gate conditions scan:
`text_lower = f" {text.lower()} "`. -/
def mkGateText (t : Str) : Str := 32 :: lowerS t ++ [32]

/-- `GrammarFixer._basic_cleanup`. -/
def basic_cleanup (s : Str) : Str :=
  let t := preprocess s
  let tl := mkGateText t
  replacements.foldl
    (fun cur e => if substrB e.1 tl then replaceAllCI (trimWs e.1) (trimWs e.2) cur else cur) t

/-! ### `grammar_fixer.py`: heuristic recipient extraction

`GrammarFixer._extract_recipient_basic`: first an `@`-handle anywhere in the
raw text, then the first known contact whose lower-cased form is a substring
of the lower-cased text, then the patterns
`(?:send|message|tell|text)\s+(?:to\s+)?(\w+)` and
`(?:my\s+)?(boss|manager|lead)` searched in the lower-cased text. -/

/-- `re.search(r"@(\w+)", text)`, returning `"@" + group(1)` of the leftmost
match. -/
def atSearch : Str → Option Str
  | [] => none
  | c :: t =>
    if c = 64 then
      (let w := t.takeWhile pyWordB
       if w.isEmpty then atSearch t else some (64 :: w))
    else atSearch t

/-- Remainder after one of the four verbs at the head of `s` (the verbs are
pairwise non-overlapping, so at most one alternative can match). -/
def verbHere (s : Str) : Option Str :=
  if startsWithL (codes "send") s then some (s.drop 4)
  else if startsWithL (codes "message") s then some (s.drop 7)
  else if startsWithL (codes "tell") s then some (s.drop 4)
  else if startsWithL (codes "text") s then some (s.drop 4)
  else none

/-- Greedy `(\w+)` capture at the head of `s`. -/
def wordCap (s : Str) : Option Str :=
  let w := s.takeWhile pyWordB
  if w.isEmpty then none else some w

/-- The greedy branch `(?:to\s+)` followed by the `(\w+)` capture. -/
def toBranch (s : Str) : Option Str :=
  if startsWithL (codes "to") s then
    let r := s.drop 2
    let ws := r.takeWhile pyWsB
    if ws.isEmpty then none else wordCap (r.drop ws.length)
  else none

/-- The pattern `(?:send|message|tell|text)\s+(?:to\s+)?(\w+)` anchored at
the head of `s`; returns the capture of group 1.  The optional `to` branch
is tried first and falls back when its continuation fails, exactly as the
backtracking engine does. -/
def verbAt (s : Str) : Option Str :=
  match verbHere s with
  | none => none
  | some r1 =>
    let ws := r1.takeWhile pyWsB
    if ws.isEmpty then none
    else
      let r2 := r1.drop ws.length
      (toBranch r2).orElse (fun _ => wordCap r2)

/-- `re.search` of the verb pattern: leftmost position wins. -/
def verbSearch : Str → Option Str
  | [] => none
  | s@(_ :: t) => (verbAt s).orElse (fun _ => verbSearch t)

/-- The role alternation `(boss|manager|lead)` at the head of `s`; returns
the capture. -/
def roleWordAt (s : Str) : Option Str :=
  if startsWithL (codes "boss") s then some (codes "boss")
  else if startsWithL (codes "manager") s then some (codes "manager")
  else if startsWithL (codes "lead") s then some (codes "lead")
  else none

/-- The pattern `(?:my\s+)?(boss|manager|lead)` anchored at the head of
`s`; the greedy `my` branch is tried first. -/
def roleAt (s : Str) : Option Str :=
  (if startsWithL (codes "my") s then
    let r := s.drop 2
    let ws := r.takeWhile pyWsB
    if ws.isEmpty then none else roleWordAt (r.drop ws.length)
  else none).orElse (fun _ => roleWordAt s)

/-- `re.search` of the role pattern: leftmost position wins. -/
def roleSearch : Str → Option Str
  | [] => none
  | s@(_ :: t) => (roleAt s).orElse (fun _ => roleSearch t)

/-- `GrammarFixer._extract_recipient_basic`. -/
def extract_recipient_basic (text : Str) (known : List Str) : Option Str :=
  let tl := lowerS text
  match atSearch text with
  | some u => some u
  | none =>
    match known.find? (fun c => substrB (lowerS c) tl) with
    | some c => some c
    | none =>
      match verbSearch tl with
      | some w => some w
      | none => roleSearch tl

/-! ### `grammar_fixer.py`: the AI correction adapter -/

/-- JSON values as far as the adapter inspects them (`null` also stands for
the Python `None` that `dict.get` yields on a missing key). -/
inductive JVal where
  | null : JVal
  | s : Str → JVal
  | n : ℚ → JVal
  | b : Bool → JVal
deriving DecidableEq

/-- The adapter result dict.  `error = none` models the absence of the
`"error"` key. -/
structure CorrectionResult where
  corrected_text : JVal
  detected_recipient : JVal
  confidence : JVal
  error : Option Str
deriving DecidableEq

/-- The AI-absent fallback dict built at `grammar_fixer.py` lines 46-50,
65-70 and 154-158 (the `error` key is present only in the exception
handler of `fix_and_parse`). -/
def fallbackResult (text : Str) (known : List Str) (err : Option Str) : CorrectionResult :=
  { corrected_text := .s (basic_cleanup text)
  , detected_recipient :=
      match extract_recipient_basic text known with
      | some r => .s r
      | none => .null
  , confidence := .n (1 / 2)
  , error := err }

/-- `re.search(r"\{[^{}]*\}", response)`: the first brace-delimited run
with no nested braces, returned with its braces. -/
def jsonExtract : Str → Option Str
  | [] => none
  | 123 :: t =>
    let body := t.takeWhile (fun c => ¬(c = 123 ∨ c = 125))
    match t.drop body.length with
    | 125 :: _ => some (123 :: body ++ [125])
    | _ => jsonExtract t
  | _ :: t => jsonExtract t

/-- `GrammarFixer._parse_ai_response`.  `jsonLoads` abstracts the external
`json.loads`: `none` is a raised `JSONDecodeError`, `some` a decoded object
as key/value pairs.  Note that both the no-extraction and the failed-decode
paths fall through to the three-key fallback dict without an `error` key. -/
def parse_ai_response (jsonLoads : Str → Option (List (Str × JVal)))
    (response original : Str) (known : List Str) : CorrectionResult :=
  match jsonExtract response with
  | some j =>
    match jsonLoads j with
    | some data =>
      { corrected_text := (alookup data (codes "corrected_message")).getD (.s (basic_cleanup original))
      , detected_recipient := (alookup data (codes "recipient")).getD .null
      , confidence := (alookup data (codes "confidence")).getD (.n (4 / 5))
      , error := none }
    | none => fallbackResult original known none
  | none => fallbackResult original known none

/-- `GrammarFixer.fix_and_parse`.  `active` is whether a provider was
configured at construction; `outcome` is the provider call, either its raw
text response or the message of the exception it raised (transport error or
`raise_for_status`); the `except` branch returns the fallback dict extended
with the `error` key. -/
def fix_and_parse (active : Bool) (outcome : Except Str Str)
    (jsonLoads : Str → Option (List (Str × JVal)))
    (text : Str) (known : List Str) : CorrectionResult :=
  if active then
    match outcome with
    | .ok response => parse_ai_response jsonLoads response text known
    | .error e => fallbackResult text known (some e)
  else fallbackResult text known none

/-! ### `main.py`: contact directory -/

/-- A contact record as stored in `config["contacts"]`. -/
structure Contact where
  name : Str
  telegram : Str
  role : Str
  notes : Str
deriving DecidableEq

/-- The two dicts of the persisted configuration that the directory
operations read and write. -/
structure Config where
  contacts : List (Str × Contact)
  aliases : List (Str × Str)
deriving DecidableEq

/-- What the callers of `resolve_recipient` read from its result: the
`"name"` and `"telegram"` entries of the returned dict. -/
structure Resolved where
  name : Str
  telegram : Str
deriving DecidableEq

/-- `resolve_recipient(hint, config)` from `main.py`.  A `None` or empty
hint is falsy; a hint starting with `@` short-circuits; otherwise the
lower-cased stripped hint goes through the alias dict (falling through when
the referenced contact is missing) and then a scan of contact names. -/
def resolve_recipient (hint : Option Str) (cfg : Config) : Option Resolved :=
  match hint with
  | none => none
  | some h =>
    if h = [] then none
    else
      let hl := trimWs (lowerS h)
      if h.head? = some 64 then some ⟨h, h⟩
      else
        match alookup cfg.aliases hl with
        | some cid =>
          match alookup cfg.contacts cid with
          | some ct => some ⟨ct.name, ct.telegram⟩
          | none => (cfg.contacts.find? (fun p => lowerS p.2.name = hl)).map
              (fun p => ⟨p.2.name, p.2.telegram⟩)
        | none => (cfg.contacts.find? (fun p => lowerS p.2.name = hl)).map
            (fun p => ⟨p.2.name, p.2.telegram⟩)

/-- The body of a contact-creation request. -/
structure ContactCreate where
  name : Str
  telegram : Str
  role : Str
  aliases : List Str
  notes : Str

/-- The response dict `create_contact` builds. -/
structure ContactResponse where
  id : Str
  name : Str
  telegram : Str
  role : Str
  aliases : List Str
  notes : Str
deriving DecidableEq

/-- `contact.name.lower().replace(" ", "_")`. -/
def derivedId (name : Str) : Str :=
  (lowerS name).map (fun c => if c = 32 then 95 else c)

/-- `create_contact` from `main.py`: store the record under the derived id
(silently overwriting any existing entry), then register the lower-cased
name, the id itself and each supplied alias, all pointing at the id. -/
def create_contact (c : ContactCreate) (cfg : Config) : Config × ContactResponse :=
  let cid := derivedId c.name
  let contacts' := dinsert cfg.contacts cid ⟨c.name, c.telegram, c.role, c.notes⟩
  let al1 := dinsert cfg.aliases (lowerS c.name) cid
  let al2 := dinsert al1 cid cid
  let al3 := c.aliases.foldl (fun m a => dinsert m (lowerS a) cid) al2
  (⟨contacts', al3⟩,
   ⟨cid, c.name, c.telegram, c.role, lowerS c.name :: c.aliases, c.notes⟩)

/-- `delete_contact` from `main.py`: 404 when the id is absent, otherwise
remove the record and every alias whose target is the id. -/
def delete_contact (cid : Str) (cfg : Config) : Except Unit Config :=
  if (alookup cfg.contacts cid).isSome then
    .ok ⟨cfg.contacts.filter (fun p => p.1 ≠ cid),
         cfg.aliases.filter (fun p => p.2 ≠ cid)⟩
  else .error ()

/-- The no-dangling-alias invariant: every contact id an alias references
exists in the contact dict. -/
def AliasInv (cfg : Config) : Prop :=
  ∀ p ∈ cfg.aliases, (alookup cfg.contacts p.2).isSome

instance : DecidablePred AliasInv := fun cfg => by
  unfold AliasInv; infer_instance

/-! ### `main.py`: addressing-prefix stripping -/

/-- `(send|message|tell|text)`. -/
def verbAltRE : RE :=
  .alt (.lit (codes "send"))
    (.alt (.lit (codes "message")) (.alt (.lit (codes "tell")) (.lit (codes "text"))))

/-- `(hey|hi|hello)`. -/
def greetAltRE : RE :=
  .alt (.lit (codes "hey")) (.alt (.lit (codes "hi")) (.lit (codes "hello")))

/-- `(to\s+)?`. -/
def toOptRE : RE := .opt (.seq (.lit (codes "to")) (.plusCls pyWsB))

/-- `(that|saying|:)?`. -/
def thatOptRE : RE :=
  .opt (.alt (.lit (codes "that")) (.alt (.lit (codes "saying")) (.lit (codes ":"))))

/-- `(?i)^(send|message|tell|text)\s+(to\s+)?NAME\s*(that|saying|:)?\s*`
with `NAME` the escaped recipient name. -/
def pat1 (name : Str) : RE :=
  .seq verbAltRE (.seq (.plusCls pyWsB) (.seq toOptRE
    (.seq (.lit name) (.seq (.starCls pyWsB) (.seq thatOptRE (.starCls pyWsB))))))

/-- `(?i)^(send|message|tell|text)\s+(to\s+)?@\w+\s*(that|saying|:)?\s*`. -/
def pat2 : RE :=
  .seq verbAltRE (.seq (.plusCls pyWsB) (.seq toOptRE
    (.seq (.lit (codes "@")) (.seq (.plusCls pyWordB)
      (.seq (.starCls pyWsB) (.seq thatOptRE (.starCls pyWsB)))))))

/-- `(?i)^(hey|hi|hello)\s+\w+\s*,?\s*`. -/
def pat3 : RE :=
  .seq greetAltRE (.seq (.plusCls pyWsB) (.seq (.plusCls pyWordB)
    (.seq (.starCls pyWsB) (.seq (.opt (.lit (codes ","))) (.starCls pyWsB)))))

/-- The fixed pattern list of `extract_message_content`. -/
def msgPatterns (name : Str) : List RE := [pat1 name, pat2, pat3]

/-- `extract_message_content(text, recipient_name)` from `main.py`: the
loop `result = re.sub(pattern, "", result, count=1)` over the three
patterns, then `result.strip()`. -/
def extract_message_content (text name : Str) : Str :=
  trimWs ((msgPatterns name).foldl (fun cur e => reSubOnce e cur) text)

/-- The recipient-name argument the `/message/preview` endpoint passes to
`extract_message_content`: the resolved name, or `""` when resolution
returned nothing. -/
def preview_body (corrected : Str) (hint : Option Str) (cfg : Config) : Str :=
  extract_message_content corrected
    (match resolve_recipient hint cfg with
     | some r => r.name
     | none => [])

/-! ### Definitions following the words of the specification

These are stated from the prose of the specification document, to be
compared with the definitions transcribed from the source. -/

/-- The resolution ladder as the specification words it: null hint to null;
a `@`-sigil hint synthesized directly; otherwise the lower-cased trimmed
hint through the alias index to an existing contact, else the first exact
case-insensitive name match, else null. -/
def resolve_spec (hint : Option Str) (cfg : Config) : Option Resolved :=
  match hint with
  | none => none
  | some [] => none
  | some h =>
    if h.head? = some 64 then some ⟨h, h⟩
    else
      let key := trimWs (lowerS h)
      let viaAlias : Option Resolved := do
        let cid ← alookup cfg.aliases key
        let ct ← alookup cfg.contacts cid
        pure ⟨ct.name, ct.telegram⟩
      let viaName : Option Resolved :=
        (cfg.contacts.find? (fun p => lowerS p.2.name = key)).map
          (fun p => ⟨p.2.name, p.2.telegram⟩)
      viaAlias.orElse (fun _ => viaName)

/-- Rule 1 of the heuristic extractor as the specification words it: the
first `@`-plus-word-characters token anywhere in the text, returned with
its `@`. -/
def firstHandleToken : Str → Option Str
  | [] => none
  | c :: t =>
    let wordNext : Bool := match t.head? with | some d => pyWordB d | none => false
    if c = 64 ∧ wordNext then some (64 :: t.takeWhile pyWordB)
    else firstHandleToken t

/-- The extraction ladder as the specification words it: handle literal,
then first known alias occurring as a case-insensitive substring, then the
verb pattern capture, then the role word, else nothing. -/
def extract_hint_spec (text : Str) (known : List Str) : Option Str :=
  (firstHandleToken text).orElse fun _ =>
  (known.find? (fun c => substrB (lowerS c) (lowerS text))).orElse fun _ =>
  (verbSearch (lowerS text)).orElse fun _ =>
  roleSearch (lowerS text)

/-- The stripping behaviour claimed by the specification: the three
patterns are applied independently of one another, each matching only a
prefix of the original input; since every pattern is anchored at the start,
at most the first matching pattern can remove anything. -/
def subOnceIndep : List RE → Str → Str
  | [], s => s
  | e :: es, s =>
    match runRE e s with
    | r :: _ => r
    | [] => subOnceIndep es s

/-- `extract_message_content` as the specification describes it. -/
def extract_message_content_indep (text name : Str) : Str :=
  trimWs (subOnceIndep (msgPatterns name) text)

/-! ### Association-list lemmas -/

theorem alookup_dinsert_self (m : List (Str × α)) (k : Str) (v : α) :
    alookup (dinsert m k v) k = some v := by
  induction m with
  | nil => simp [dinsert, alookup]
  | cons p t ih =>
    obtain ⟨k', v'⟩ := p
    by_cases hk : k' = k
    · subst hk; simp [dinsert, alookup]
    · simp only [dinsert, if_neg hk]
      simp only [alookup, if_neg hk]
      exact ih

theorem mem_dinsert {k : Str} {v : α} :
    ∀ {m : List (Str × α)} {p : Str × α}, p ∈ dinsert m k v → p = (k, v) ∨ p ∈ m := by
  intro m
  induction m with
  | nil => intro p h; simpa [dinsert] using h
  | cons q t ih =>
    intro p h
    obtain ⟨k', v'⟩ := q
    by_cases hk : k' = k
    · rw [show dinsert ((k', v') :: t) k v = (k, v) :: t by simp [dinsert, hk]] at h
      rcases List.mem_cons.mp h with h1 | h1
      · exact Or.inl h1
      · exact Or.inr (List.mem_cons_of_mem _ h1)
    · rw [show dinsert ((k', v') :: t) k v = (k', v') :: dinsert t k v by
        simp [dinsert, hk]] at h
      rcases List.mem_cons.mp h with h1 | h1
      · exact Or.inr (h1 ▸ List.mem_cons_self _ _)
      · rcases ih h1 with h2 | h2
        · exact Or.inl h2
        · exact Or.inr (List.mem_cons_of_mem _ h2)

theorem alookup_dinsert_isSome {k' k : Str} {v : α} :
    ∀ {m : List (Str × α)}, (alookup m k').isSome →
      (alookup (dinsert m k v) k').isSome := by
  intro m
  induction m with
  | nil => intro h; simp [alookup] at h
  | cons q t ih =>
    intro h
    obtain ⟨k0, v0⟩ := q
    by_cases hk : k0 = k
    · rw [show dinsert ((k0, v0) :: t) k v = (k, v) :: t by simp [dinsert, hk]]
      by_cases hk' : k = k'
      · simp [alookup, hk']
      · simp only [alookup, if_neg hk']
        rw [← hk] at hk'
        simpa [alookup, if_neg hk'] using h
    · rw [show dinsert ((k0, v0) :: t) k v = (k0, v0) :: dinsert t k v by
        simp [dinsert, hk]]
      by_cases hk' : k0 = k'
      · simp [alookup, hk']
      · simp only [alookup, if_neg hk'] at h ⊢
        exact ih h

theorem alookup_filter_val_ne {cid : Str} :
    ∀ {m : List (Str × Str)} {k v : Str},
      alookup (m.filter (fun p => p.2 ≠ cid)) k = some v → v ≠ cid := by
  intro m
  induction m with
  | nil => intro k v h; simp [alookup] at h
  | cons q t ih =>
    intro k v h
    obtain ⟨k0, v0⟩ := q
    by_cases hv : v0 = cid
    · rw [List.filter_cons, if_neg (by simp [hv])] at h
      exact ih h
    · rw [List.filter_cons, if_pos (by simpa using hv)] at h
      simp only [alookup] at h
      split at h
      · cases h; exact hv
      · exact ih h

theorem alookup_filter_key (p : Str × α → Bool) :
    ∀ (m : List (Str × α)) (k : Str),
      (∀ q ∈ m, q.1 = k → p q = true) →
      alookup (m.filter p) k = alookup m k := by
  intro m
  induction m with
  | nil => intro k _; rfl
  | cons q t ih =>
    intro k h
    obtain ⟨k0, v0⟩ := q
    by_cases hk : k0 = k
    · rw [List.filter_cons, if_pos (h (k0, v0) (List.mem_cons_self _ _) hk)]
      simp [alookup, hk]
    · rw [List.filter_cons]
      by_cases hp : p (k0, v0) = true
      · rw [if_pos hp]
        simp only [alookup, if_neg hk]
        exact ih k (fun q hq => h q (List.mem_cons_of_mem _ hq))
      · rw [if_neg hp]
        simp only [alookup, if_neg hk]
        exact ih k (fun q hq => h q (List.mem_cons_of_mem _ hq))

theorem alookup_eq_none_of_forall :
    ∀ {m : List (Str × α)} {k : Str}, (∀ q ∈ m, q.1 ≠ k) → alookup m k = none := by
  intro m
  induction m with
  | nil => intro k _; rfl
  | cons q t ih =>
    intro k h
    obtain ⟨k0, v0⟩ := q
    simp only [alookup]
    rw [if_neg (h (k0, v0) (List.mem_cons_self _ _))]
    exact ih (fun q hq => h q (List.mem_cons_of_mem _ hq))

theorem alookup_filter_none_of_nodup {cid : Str} :
    ∀ {m : List (Str × Str)} {a : Str},
      (m.map Prod.fst).Nodup → alookup m a = some cid →
      alookup (m.filter (fun p => p.2 ≠ cid)) a = none := by
  intro m
  induction m with
  | nil => intro a _ h; simp [alookup] at h
  | cons q t ih =>
    intro a hnd h
    obtain ⟨k0, v0⟩ := q
    simp only [List.map_cons, List.nodup_cons] at hnd
    by_cases hk : k0 = a
    · rw [show alookup ((k0, v0) :: t) a = some v0 by simp [alookup, hk]] at h
      obtain rfl : v0 = cid := by cases h; rfl
      rw [List.filter_cons, if_neg (by simp)]
      refine alookup_eq_none_of_forall (fun q hq hq1 => ?_)
      rw [← hk] at hq1
      exact hnd.1 (hq1 ▸ List.mem_map_of_mem Prod.fst (List.mem_of_mem_filter hq))
    · simp only [alookup, if_neg hk] at h
      rw [List.filter_cons]
      by_cases hp : v0 ≠ cid
      · rw [if_pos (by simpa using hp)]
        simp only [alookup, if_neg hk]
        exact ih hnd.2 h
      · rw [if_neg (by simpa using hp)]
        exact ih hnd.2 h

theorem foldl_dinsert_mem {cid : Str} {f : Str → Str} :
    ∀ (l : List Str) (m : List (Str × Str)) (p : Str × Str),
      p ∈ l.foldl (fun m a => dinsert m (f a) cid) m → p.2 = cid ∨ p ∈ m := by
  intro l
  induction l with
  | nil => intro m p hp; exact Or.inr hp
  | cons a l ih =>
    intro m p hp
    simp only [List.foldl_cons] at hp
    rcases ih _ p hp with h | h
    · exact Or.inl h
    · rcases mem_dinsert h with h' | h'
      · exact Or.inl (by rw [h'])
      · exact Or.inr h'

theorem foldl_dinsert_lookup_isSome {cid : Str} {f : Str → Str} :
    ∀ (l : List Str) (m : List (Str × Str)) (k : Str),
      (alookup m k).isSome →
      (alookup (l.foldl (fun m a => dinsert m (f a) cid) m) k).isSome := by
  intro l
  induction l with
  | nil => intro m k h; exact h
  | cons a l ih =>
    intro m k h
    simp only [List.foldl_cons]
    exact ih _ k (alookup_dinsert_isSome h)

/-! ### Claim C1: the resolution ladder -/

/-- C1: `resolve_recipient` follows the resolution ladder of the
specification exactly, for every hint and directory state: a null or empty
hint yields null; a hint whose first character is `@` yields the
synthesized direct target with no directory lookup; otherwise the
lower-cased trimmed hint goes through the alias index to an existing
contact, else the first case-insensitive name match, else null. -/
theorem C1_resolve_ladder :
    ∀ (hint : Option Str) (cfg : Config),
      resolve_recipient hint cfg = resolve_spec hint cfg := by
  intro hint cfg
  match hint with
  | none => rfl
  | some [] => rfl
  | some (c :: h) =>
    simp only [resolve_recipient, resolve_spec]
    rw [if_neg (by simp : ¬(c :: h = ([] : Str)))]
    by_cases h64 : (c :: h : Str).head? = some 64
    · rw [if_pos h64, if_pos h64]
    · rw [if_neg h64, if_neg h64]
      cases halias : alookup cfg.aliases (trimWs (lowerS (c :: h))) with
      | none => simp [halias, Option.orElse]
      | some cid =>
        cases hct : alookup cfg.contacts cid with
        | none => simp [halias, hct, Option.orElse]
        | some ct => simp [halias, hct, Option.orElse]

/-! ### Claim C5: the no-dangling-alias invariant -/

/-- C5: from any state satisfying the no-dangling-alias invariant, contact
creation preserves the invariant (all aliases it adds target the contact it
just stored), and contact deletion, when it succeeds, preserves the
invariant and removes every alias of the deleted contact: an alias that
mapped to the deleted id no longer resolves to anything. -/
theorem C5_no_dangling_alias :
    (∀ (cfg : Config) (c : ContactCreate),
       AliasInv cfg → AliasInv (create_contact c cfg).1) ∧
    (∀ (cfg : Config) (cid : Str) (cfg' : Config),
       AliasInv cfg → (cfg.aliases.map Prod.fst).Nodup →
       delete_contact cid cfg = .ok cfg' →
       AliasInv cfg' ∧
       ∀ a, alookup cfg.aliases a = some cid → alookup cfg'.aliases a = none) := by
  constructor
  · intro cfg c hinv p hp
    simp only [create_contact] at hp ⊢
    rcases foldl_dinsert_mem _ _ _ hp with hcid | hp2
    · rw [hcid]
      rw [alookup_dinsert_self]
      rfl
    · rcases mem_dinsert hp2 with heq | hp3
      · rw [heq]
        rw [alookup_dinsert_self]
        rfl
      · rcases mem_dinsert hp3 with heq | hp4
        · rw [heq]
          rw [alookup_dinsert_self]
          rfl
        · exact alookup_dinsert_isSome (hinv p hp4)
  · intro cfg cid cfg' hinv hnd hdel
    unfold delete_contact at hdel
    split at hdel
    · next hsome =>
      obtain rfl : (⟨cfg.contacts.filter (fun p => p.1 ≠ cid),
          cfg.aliases.filter (fun p => p.2 ≠ cid)⟩ : Config) = cfg' := by
        cases hdel; rfl
      constructor
      · intro p hp
        have hmem := List.mem_of_mem_filter hp
        have hne : p.2 ≠ cid := by simpa using List.of_mem_filter hp
        have hs := hinv p hmem
        have heq : alookup (cfg.contacts.filter (fun q => q.1 ≠ cid)) p.2
            = alookup cfg.contacts p.2 :=
          alookup_filter_key _ cfg.contacts p.2 (fun q _ hq1 => by simp [hq1, hne])
        show (alookup (cfg.contacts.filter (fun q => q.1 ≠ cid)) p.2).isSome = true
        rw [heq]
        exact hs
      · intro a ha
        exact alookup_filter_none_of_nodup hnd ha
    · cases hdel

/-- Example directory used to instantiate C5: one contact with two
aliases. -/
def cfgW : Config :=
  ⟨[(codes "bob_id", ⟨codes "Bob", codes "@bob", codes "boss", []⟩)],
   [(codes "boss", codes "bob_id"), (codes "bob_id", codes "bob_id")]⟩

/-- Example creation request used to instantiate C5. -/
def ccW : ContactCreate :=
  ⟨codes "Ana Roy", codes "@ana", codes "colleague", [codes "an"], []⟩

/-- Witness for C5 at a concrete directory: creation preserves the
invariant, and after deleting `bob_id` the empty directory satisfies the
invariant and the alias `boss` no longer resolves. -/
theorem C5_witness :
    AliasInv (create_contact ccW cfgW).1 ∧
    (AliasInv (⟨[], []⟩ : Config) ∧
     alookup (Config.aliases ⟨[], []⟩) (codes "boss") = none) := by
  refine ⟨C5_no_dangling_alias.1 cfgW ccW (by decide), ?_⟩
  obtain ⟨h1, h2⟩ := C5_no_dangling_alias.2 cfgW (codes "bob_id") ⟨[], []⟩
    (by decide) (by decide) (by rfl)
  exact ⟨h1, h2 (codes "boss") (by decide)⟩

/-! ### Claim C6: duplicate contact creation -/

/-- Pre-existing directory for the C6 and C6-witness instances. -/
def cfgD : Config :=
  ⟨[(codes "bob", ⟨codes "Bob", codes "@bob1", codes "boss", []⟩)],
   [(codes "bob", codes "bob")]⟩

/-- Creation request whose derived id collides with the stored contact. -/
def cD : ContactCreate :=
  ⟨codes "Bob", codes "@bob2", codes "friend", [], []⟩

/-- Counterexample to C6 as stated: with contact id `bob` already present,
`create_contact` does not fail with any duplicate condition — it returns
normally and the stored record is replaced, so the existing contact record
is not left unchanged. -/
theorem C6_counterexample :
    alookup cfgD.contacts (codes "bob")
      = some ⟨codes "Bob", codes "@bob1", codes "boss", []⟩ ∧
    alookup (create_contact cD cfgD).1.contacts (codes "bob")
      = some ⟨codes "Bob", codes "@bob2", codes "friend", []⟩ ∧
    (create_contact cD cfgD).1.contacts ≠ cfgD.contacts := by
  refine ⟨by decide, by decide, by decide⟩

/-- C6 amended: contact creation never fails; when the derived contact id
already exists in the contact set, the existing record is silently
overwritten with the new fields. -/
theorem C6_duplicate_overwrites :
    ∀ (cfg : Config) (c : ContactCreate) (old : Contact),
      alookup cfg.contacts (derivedId c.name) = some old →
      alookup (create_contact c cfg).1.contacts (derivedId c.name)
        = some ⟨c.name, c.telegram, c.role, c.notes⟩ := by
  intro cfg c old _
  simp only [create_contact]
  exact alookup_dinsert_self _ _ _

/-- Witness for C6 amended at the concrete duplicate creation. -/
theorem C6_witness :
    alookup (create_contact cD cfgD).1.contacts (codes "bob")
      = some ⟨codes "Bob", codes "@bob2", codes "friend", []⟩ :=
  C6_duplicate_overwrites cfgD cD ⟨codes "Bob", codes "@bob1", codes "boss", []⟩
    (by decide)

/-! ### Claim C2: failure handling of the AI adapter -/

/-- Counterexample to C2 as stated: with a provider configured and the call
returning a response from which no JSON object can be extracted (a parse
failure), `fix_and_parse` returns the fallback dict but with no `error`
key at all — the failure message is not carried, contrary to the claim
that every failure mode populates `error`. -/
theorem C2_counterexample :
    jsonExtract (codes "Sorry, I cannot help with that.") = none ∧
    (fix_and_parse true (.ok (codes "Sorry, I cannot help with that."))
        (fun _ => none) (codes "send bob hi") []).error = none := by
  refine ⟨by decide, by decide⟩

/-- C2 amended: with a provider configured, `fix_and_parse` is total and
returns the AI-absent fallback result on every failure, but the `error`
field is populated only for failures of the call itself (transport errors
and HTTP error statuses, surfaced as a raised exception); JSON extraction
and JSON decoding failures return the very same fallback values with the
`error` key absent. -/
theorem C2_failure_fallback :
    ∀ (text : Str) (known : List Str) (jsonLoads : Str → Option (List (Str × JVal)))
      (msg response : Str),
      (fix_and_parse true (.error msg) jsonLoads text known
        = fallbackResult text known (some msg)) ∧
      (jsonExtract response = none →
        fix_and_parse true (.ok response) jsonLoads text known
          = fallbackResult text known none) ∧
      (∀ j, jsonExtract response = some j → jsonLoads j = none →
        fix_and_parse true (.ok response) jsonLoads text known
          = fallbackResult text known none) := by
  intro text known jsonLoads msg response
  refine ⟨rfl, ?_, ?_⟩
  · intro hx
    simp [fix_and_parse, parse_ai_response, hx]
  · intro j hj hd
    simp [fix_and_parse, parse_ai_response, hj, hd]

/-- Witness for C2 amended, at a transport failure, a response with no JSON
object, and a response whose extracted JSON fails to decode. -/
theorem C2_witness :
    (fix_and_parse true (.error (codes "Connection timed out"))
        (fun _ => none) (codes "tell bob hi") []
      = fallbackResult (codes "tell bob hi") [] (some (codes "Connection timed out"))) ∧
    (fix_and_parse true (.ok (codes "no object here"))
        (fun _ => none) (codes "tell bob hi") []
      = fallbackResult (codes "tell bob hi") [] none) ∧
    (fix_and_parse true (.ok (codes "x \x7b broken \x7d y"))
        (fun _ => none) (codes "tell bob hi") []
      = fallbackResult (codes "tell bob hi") [] none) := by
  obtain ⟨h1, h2, h3⟩ :=
    C2_failure_fallback (codes "tell bob hi") [] (fun _ => none)
      (codes "Connection timed out") (codes "x \x7b broken \x7d y")
  refine ⟨h1, ?_, h3 (codes "\x7b broken \x7d") (by decide) rfl⟩
  obtain ⟨_, h2', _⟩ :=
    C2_failure_fallback (codes "tell bob hi") [] (fun _ => none)
      (codes "Connection timed out") (codes "no object here")
  exact h2' (by decide)

/-! ### Claim C4: heuristic extraction priority -/

theorem atSearch_eq_firstHandleToken : ∀ t : Str, atSearch t = firstHandleToken t := by
  intro t
  induction t with
  | nil => rfl
  | cons c t ih =>
    by_cases hc : c = 64
    · subst hc
      simp only [atSearch, firstHandleToken, if_pos rfl]
      cases ht : t with
      | nil => simpa [List.takeWhile] using ht ▸ ih
      | cons d t' =>
        by_cases hd : pyWordB d
        · simp [List.takeWhile, hd]
        · simp only [List.head?, List.takeWhile, hd]
          simpa [hd] using ht ▸ ih
    · simp only [atSearch, firstHandleToken, if_neg hc]
      rw [if_neg (by simp [hc])]
      exact ih

/-- C4: `_extract_recipient_basic` obeys the fixed short-circuit priority
ladder of the specification (handle literal first, then known-alias
substring in list order, then the verb-pattern capture, then the role
word, else nothing), and on `"message @priya_designs the mockups"` it
returns `"@priya_designs"` even though `"priya"` is a known alias. -/
theorem C4_extract_hint_priority :
    (∀ (text : Str) (known : List Str),
      extract_recipient_basic text known = extract_hint_spec text known) ∧
    extract_recipient_basic (codes "message @priya_designs the mockups")
        [codes "rahul", codes "priya", codes "boss"]
      = some (codes "@priya_designs") := by
  constructor
  · intro text known
    simp only [extract_recipient_basic, extract_hint_spec,
      atSearch_eq_firstHandleToken]
    cases firstHandleToken text with
    | some u => simp [Option.orElse]
    | none =>
      cases known.find? (fun c => substrB (lowerS c) (lowerS text)) with
      | some c => simp [Option.orElse]
      | none =>
        cases verbSearch (lowerS text) with
        | some w => simp [Option.orElse]
        | none => simp [Option.orElse]
  · decide

/-! ### Claim C3: how the stripping patterns combine -/

/-- Counterexample to C3 as stated: on `"Send Rahul hey bob, rest"` with
recipient `"Rahul"`, the first pattern strips `"Send Rahul "`, leaving
`"hey bob, rest"`; the greeting pattern then strips `"hey bob, "`, a piece
of text that is not a prefix of the original input (patterns two and three
do not match the original at all, so under the claimed independent
application the result would be `"hey bob, rest"`).  The code returns
`"rest"`: patterns are chained, and a pattern does remove a prefix newly
exposed by an earlier removal. -/
theorem C3_counterexample :
    extract_message_content (codes "Send Rahul hey bob, rest") (codes "Rahul")
      = codes "rest" ∧
    extract_message_content_indep (codes "Send Rahul hey bob, rest") (codes "Rahul")
      = codes "hey bob, rest" ∧
    reSubOnce (pat1 (codes "Rahul")) (codes "Send Rahul hey bob, rest")
      = codes "hey bob, rest" ∧
    runRE pat2 (codes "Send Rahul hey bob, rest") = [] ∧
    runRE pat3 (codes "Send Rahul hey bob, rest") = [] := by
  refine ⟨by decide, by decide, by decide, by decide, by decide⟩

/-- C3 amended: `extract_message_content` applies its three start-anchored
patterns in the fixed order, each at most once, but cumulatively: each
pattern strips from the text left by the earlier patterns, so a pattern can
remove a prefix newly exposed by an earlier removal.  Each single
application removes at most one leading match, so the pre-trim result is a
suffix of the input at every stage. -/
theorem C3_patterns_chained :
    (∀ (text name : Str),
      extract_message_content text name
        = trimWs (reSubOnce pat3 (reSubOnce pat2 (reSubOnce (pat1 name) text)))) ∧
    (∀ (e : RE) (s : Str), reSubOnce e s <:+ s) := by
  exact ⟨fun text name => rfl, reSubOnce_suffix⟩

/-! ### Claim C7: cleanup output ends in terminal punctuation -/

theorem ciStarts_ne_last {c : Nat} :
    ∀ (token pre : Str), (∀ a ∈ token, lowerNat a ≠ lowerNat c) →
      ciStarts token (pre ++ [c]) = true → token.length ≤ pre.length := by
  intro token
  induction token with
  | nil => intro pre _ _; simp
  | cons a as ih =>
    intro pre hne hci
    cases pre with
    | nil =>
      simp only [List.nil_append, ciStarts, decide_eq_true_eq] at hci
      exact absurd hci.1 (hne a (List.mem_cons_self _ _))
    | cons p ps =>
      simp only [List.cons_append, ciStarts, decide_eq_true_eq] at hci
      have h2 : ciStarts as (ps ++ [c]) = true := by
        simpa using hci.2
      exact Nat.succ_le_succ
        (ih ps (fun x hx => hne x (List.mem_cons_of_mem _ hx)) h2)

theorem raGo_nil (token repl : Str) : ∀ fuel, raGo token repl fuel [] = [] := by
  intro fuel
  cases fuel with
  | zero => rfl
  | succ fuel => rfl

theorem raGo_ends {token repl : Str} {c : Nat}
    (hne : ∀ a ∈ token, lowerNat a ≠ lowerNat c) :
    ∀ (fuel : Nat) (pre : Str),
      ∃ pre', raGo token repl fuel (pre ++ [c]) = pre' ++ [c] := by
  intro fuel
  induction fuel with
  | zero =>
    intro pre
    cases pre with
    | nil => exact ⟨[], rfl⟩
    | cons p ps => exact ⟨p :: ps, rfl⟩
  | succ fuel ih =>
    intro pre
    cases pre with
    | nil =>
      have hstep : raGo token repl (fuel + 1) ([] ++ [c]) =
          if ciStarts token [c] = true
          then repl ++ raGo token repl fuel (([c] : Str).drop token.length)
          else c :: raGo token repl fuel [] := by
        simp only [List.nil_append]
        rfl
      by_cases hci : ciStarts token [c] = true
      · have hlen : token.length ≤ 0 := by
          simpa using ciStarts_ne_last token [] hne (by simpa using hci)
        have htok : token = [] := List.length_eq_zero.mp (Nat.le_zero.mp hlen)
        subst htok
        obtain ⟨pre'', h2⟩ := ih []
        refine ⟨repl ++ pre'', ?_⟩
        rw [hstep, if_pos hci]
        simp only [List.length_nil, List.drop_zero]
        rw [show (raGo [] repl fuel [c] : Str) = raGo [] repl fuel ([] ++ [c]) from rfl, h2,
          List.append_assoc]
      · refine ⟨[], ?_⟩
        rw [hstep, if_neg hci, raGo_nil]
        rfl
    | cons p ps =>
      have hstep : raGo token repl (fuel + 1) ((p :: ps) ++ [c]) =
          if ciStarts token ((p :: ps) ++ [c]) = true
          then repl ++ raGo token repl fuel (((p :: ps) ++ [c]).drop token.length)
          else p :: raGo token repl fuel (ps ++ [c]) := rfl
      by_cases hci : ciStarts token ((p :: ps) ++ [c]) = true
      · have hlen : token.length ≤ (p :: ps).length :=
          ciStarts_ne_last token (p :: ps) hne hci
        have hdrop : ((p :: ps) ++ [c]).drop token.length
            = ((p :: ps).drop token.length) ++ [c] := by
          rw [List.drop_append_eq_append_drop, Nat.sub_eq_zero_of_le hlen]
          rfl
        obtain ⟨pre'', h2⟩ := ih ((p :: ps).drop token.length)
        refine ⟨repl ++ pre'', ?_⟩
        rw [hstep, if_pos hci, hdrop, h2, List.append_assoc]
      · obtain ⟨pre'', h2⟩ := ih ps
        refine ⟨p :: pre'', ?_⟩
        rw [hstep, if_neg hci, h2]
        rfl

theorem replaceAllCI_ends {token repl : Str} {c : Nat}
    (hne : ∀ a ∈ token, lowerNat a ≠ lowerNat c) (pre : Str) :
    ∃ pre', replaceAllCI token repl (pre ++ [c]) = pre' ++ [c] := by
  unfold replaceAllCI
  by_cases ht : token.isEmpty
  · rw [if_pos ht]; exact ⟨pre, rfl⟩
  · rw [if_neg ht]; exact raGo_ends hne _ pre

/-- The character codes accepted as terminal punctuation: `.`, `!`, `?`. -/
def punctCode (c : Nat) : Prop := c = 46 ∨ c = 33 ∨ c = 63

instance : DecidablePred punctCode := fun c => by unfold punctCode; infer_instance

/-- A string ends in terminal punctuation. -/
def endsPunct (s : Str) : Prop := ∃ t c, s = t ++ [c] ∧ punctCode c

theorem foldl_replace_ends (tl : Str) :
    ∀ (l : List (Str × Str)),
      (∀ e ∈ l, ∀ a ∈ trimWs e.1, lowerNat a ≠ 46 ∧ lowerNat a ≠ 33 ∧ lowerNat a ≠ 63) →
      ∀ t, endsPunct t →
      endsPunct (l.foldl
        (fun cur e => if substrB e.1 tl then replaceAllCI (trimWs e.1) (trimWs e.2) cur else cur) t) := by
  intro l
  induction l with
  | nil => intro _ t ht; exact ht
  | cons e es ih =>
    intro hside t ht
    simp only [List.foldl_cons]
    refine ih (fun e' he' => hside e' (List.mem_cons_of_mem _ he')) _ ?_
    by_cases hg : substrB e.1 tl = true
    · rw [if_pos hg]
      obtain ⟨pre, c, rfl, hc⟩ := ht
      have hne : ∀ a ∈ trimWs e.1, lowerNat a ≠ lowerNat c := by
        intro a ha
        have h3 := hside e (List.mem_cons_self _ _) a ha
        have hcl : lowerNat c = c := by
          rcases hc with rfl | rfl | rfl <;> rfl
        rw [hcl]
        rcases hc with rfl | rfl | rfl
        · exact h3.1
        · exact h3.2.1
        · exact h3.2.2
      obtain ⟨pre', hp⟩ := replaceAllCI_ends hne pre
      exact ⟨pre', c, hp, hc⟩
    · rw [if_neg hg]
      exact ht

theorem getLast?_to_append : ∀ (l : Str) (d : Nat), l.getLast? = some d → ∃ t, l = t ++ [d] := by
  intro l
  induction l with
  | nil => intro d h; simp at h
  | cons x rest ih =>
    intro d h
    cases rest with
    | nil =>
      simp only [List.getLast?_singleton, Option.some.injEq] at h
      exact ⟨[], by simp [h]⟩
    | cons y t =>
      rw [List.getLast?_cons_cons] at h
      obtain ⟨t', ht⟩ := ih d h
      exact ⟨x :: t', by rw [ht, List.cons_append]⟩

theorem preprocess_ends {s : Str} (h : trimWs s ≠ []) : endsPunct (preprocess s) := by
  unfold preprocess
  cases hts : trimWs s with
  | nil => exact absurd hts h
  | cons c0 r =>
    simp only
    split
    · exact ⟨upperNat c0 :: r, 46, rfl, Or.inl rfl⟩
    · next hcond =>
      rw [Classical.not_and_iff_or_not_not] at hcond
      rcases hcond with hnil | hpunct
      · simp at hnil
      · rw [Classical.not_not] at hpunct
        rcases hpunct with h46 | h33 | h63
        · obtain ⟨t, ht⟩ := getLast?_to_append _ _ h46
          exact ⟨t, 46, ht, Or.inl rfl⟩
        · obtain ⟨t, ht⟩ := getLast?_to_append _ _ h33
          exact ⟨t, 33, ht, Or.inr (Or.inl rfl)⟩
        · obtain ⟨t, ht⟩ := getLast?_to_append _ _ h63
          exact ⟨t, 63, ht, Or.inr (Or.inr rfl)⟩

/-- Counterexample to C7 as stated: the input `" "` is a non-empty string,
yet `_basic_cleanup` returns the empty string (the strip happens before the
capitalize/punctuate steps, and a blank input strips to nothing), which in
particular does not end in `. ! ?`. -/
theorem C7_counterexample :
    codes " " ≠ [] ∧ basic_cleanup (codes " ") = [] := by
  refine ⟨by decide, by decide⟩

/-- C7 amended: for every input whose whitespace-stripped form is
non-empty, the output of `_basic_cleanup` is non-empty and its last
character is one of `.`, `!`, `?`. -/
theorem C7_ends_in_punctuation :
    ∀ s : Str, trimWs s ≠ [] →
      basic_cleanup s ≠ [] ∧
      ((basic_cleanup s).getLast? = some 46 ∨
       (basic_cleanup s).getLast? = some 33 ∨
       (basic_cleanup s).getLast? = some 63) := by
  intro s hs
  have hfold : endsPunct (basic_cleanup s) := by
    unfold basic_cleanup
    exact foldl_replace_ends _ replacements (by decide) _ (preprocess_ends hs)
  obtain ⟨t, c, heq, hc⟩ := hfold
  constructor
  · rw [heq]; simp
  · rw [heq, List.getLast?_concat]
    rcases hc with rfl | rfl | rfl
    · exact Or.inl rfl
    · exact Or.inr (Or.inl rfl)
    · exact Or.inr (Or.inr rfl)

/-- Witness for C7 amended at the concrete input `"hi"`. -/
theorem C7_witness :
    basic_cleanup (codes "hi") ≠ [] ∧
    ((basic_cleanup (codes "hi")).getLast? = some 46 ∨
     (basic_cleanup (codes "hi")).getLast? = some 33 ∨
     (basic_cleanup (codes "hi")).getLast? = some 63) :=
  C7_ends_in_punctuation (codes "hi") (by decide)

/-! ### Claim C8: whole-word gating of the typo table -/

theorem foldl_no_gate (tl : Str) :
    ∀ (l : List (Str × Str)) (t : Str),
      (∀ e ∈ l, substrB e.1 tl = false) →
      l.foldl (fun cur e =>
        if substrB e.1 tl then replaceAllCI (trimWs e.1) (trimWs e.2) cur else cur) t = t := by
  intro l
  induction l with
  | nil => intro t _; rfl
  | cons e es ih =>
    intro t h
    simp only [List.foldl_cons]
    rw [if_neg (by simp [h e (List.mem_cons_self _ _)])]
    exact ih t (fun e' he' => h e' (List.mem_cons_of_mem _ he'))

/-- When no entry of the typo table finds a standalone (space-delimited)
occurrence in the padded lower-cased processed text, the replacement loop
changes nothing. -/
theorem basic_cleanup_no_gate (s : Str)
    (h : ∀ e ∈ replacements, substrB e.1 (mkGateText (preprocess s)) = false) :
    basic_cleanup s = preprocess s := by
  unfold basic_cleanup
  exact foldl_no_gate _ replacements _ h

/-- Counterexample to C8 as stated: in
`"im sure the time is right"` the token `im` occurs both standalone and
embedded inside `time`; the gate fires on the standalone occurrence and the
substitution then rewrites every occurrence case-insensitively, including
the one inside `time`, producing `"I'm sure the tI'me is right."`.  So it
is not true that only standalone occurrences are replaced. -/
theorem C8_counterexample :
    substrB (codes " im ") (mkGateText (preprocess (codes "im sure the time is right"))) = true ∧
    basic_cleanup (codes "im sure the time is right")
      = codes "I\x27m sure the tI\x27me is right." := by
  refine ⟨by decide, by decide⟩

/-- C8 amended: an old token of the table is substituted only when it also
occurs standalone (space-delimited) in the space-padded lower-cased copy of
the processed text; in particular, when no token of the table occurs
standalone, nothing at all is replaced.  When the gate does fire, however,
all occurrences of the token are replaced, including those embedded in
larger words (the counterexample exhibits this). -/
theorem C8_standalone_gate :
    ∀ s : Str,
      (∀ e ∈ replacements, substrB e.1 (mkGateText (preprocess s)) = false) →
      basic_cleanup s = preprocess s := by
  intro s h
  exact basic_cleanup_no_gate s h

/-- Witness for C8 amended: on `"Ok then!"` no table token occurs
standalone and the cleanup output is exactly the processed text. -/
theorem C8_witness :
    basic_cleanup (codes "Ok then!") = preprocess (codes "Ok then!") :=
  C8_standalone_gate (codes "Ok then!") (by decide)

/-! ### Claim C9: idempotence of the normalizer on clean text -/

theorem upperNat_idem (c : Nat) : upperNat (upperNat c) = upperNat c := by
  by_cases h : 97 ≤ c ∧ c ≤ 122
  · have h1 : upperNat c = c - 32 := by unfold upperNat; rw [if_pos h]
    rw [h1]
    unfold upperNat
    rw [if_neg (by omega)]
  · have h1 : upperNat c = c := by unfold upperNat; rw [if_neg h]
    rw [h1, h1]

theorem pyWsB_upperNat {c : Nat} (h : pyWsB c = false) : pyWsB (upperNat c) = false := by
  unfold upperNat
  by_cases hr : 97 ≤ c ∧ c ≤ 122
  · rw [if_pos hr]
    simp only [pyWsB, decide_eq_false_iff_not]
    omega
  · rw [if_neg hr]
    exact h

theorem dropWhile_head_false {p : Nat → Bool} :
    ∀ (l : Str) (h : Nat) (t : Str), l.dropWhile p = h :: t → p h = false := by
  intro l
  induction l with
  | nil => intro h t hd; simp at hd
  | cons x xs ih =>
    intro h t hd
    by_cases hx : p x = true
    · rw [List.dropWhile_cons, if_pos hx] at hd
      exact ih h t hd
    · rw [List.dropWhile_cons, if_neg hx] at hd
      cases hd
      simpa using hx

theorem dropWhile_append_last {p : Nat → Bool} {c : Nat} (hc : p c = false) :
    ∀ u : Str, List.dropWhile p (u ++ [c]) = List.dropWhile p u ++ [c] := by
  intro u
  induction u with
  | nil => simp [List.dropWhile, hc]
  | cons x xs ih =>
    by_cases hx : p x = true
    · simp only [List.cons_append, List.dropWhile_cons, if_pos hx]
      exact ih
    · simp only [List.cons_append, List.dropWhile_cons, if_neg hx]

theorem trim_of_ends {c : Nat} (hc : pyWsB c = false) (u : Str) :
    trimWs (u ++ [c]) = (u.dropWhile pyWsB) ++ [c] := by
  unfold trimWs
  rw [dropWhile_append_last hc u, List.reverse_append]
  simp only [List.reverse_singleton, List.singleton_append, List.dropWhile_cons, hc]
  simp

theorem preprocess_of_trim_cons {s : Str} {h0 : Nat} {rest : Str} {cl : Nat}
    (htr : trimWs s = h0 :: rest)
    (hl : (upperNat h0 :: rest : Str).getLast? = some cl) (hp : punctCode cl) :
    preprocess s = upperNat h0 :: rest := by
  have hcond : ¬((upperNat h0 :: rest : Str) ≠ [] ∧
      ¬((upperNat h0 :: rest : Str).getLast? = some 46 ∨
        (upperNat h0 :: rest : Str).getLast? = some 33 ∨
        (upperNat h0 :: rest : Str).getLast? = some 63)) := by
    intro hcontra
    apply hcontra.2
    rcases hp with rfl | rfl | rfl
    · exact Or.inl hl
    · exact Or.inr (Or.inl hl)
    · exact Or.inr (Or.inr hl)
  unfold preprocess
  simp only [htr]
  rw [if_neg hcond]

/-- Counterexample to C9 as stated: `"Teh cat."` has a correctly
capitalized first character and ends in `.`, yet the typo substitution
rewrites `Teh` to the lower-case literal `the`, un-capitalizing the first
character; the second pass re-capitalizes it, so
`normalize(normalize(s)) = "The cat." ≠ "the cat." = normalize(s)`. -/
theorem C9_counterexample :
    (codes "Teh cat.").head? = some 84 ∧ upperNat 84 = 84 ∧
    (codes "Teh cat.").getLast? = some 46 ∧
    basic_cleanup (codes "Teh cat.") = codes "the cat." ∧
    basic_cleanup (basic_cleanup (codes "Teh cat.")) = codes "The cat." ∧
    basic_cleanup (basic_cleanup (codes "Teh cat.")) ≠ basic_cleanup (codes "Teh cat.") := by
  refine ⟨by decide, by decide, by decide, by decide, by decide, by decide⟩

/-- C9 amended: `_basic_cleanup` is idempotent on clean text on which the
typo table stays silent: for every string whose first character is its own
upper-case, whose last character is one of `. ! ?`, and in whose padded
lower-cased processed form no table token occurs standalone,
`normalize(normalize(s)) = normalize(s)`. -/
theorem C9_idempotent_on_clean :
    ∀ (s : Str) (c0 cl : Nat),
      s.head? = some c0 → upperNat c0 = c0 →
      s.getLast? = some cl → punctCode cl →
      (∀ e ∈ replacements, substrB e.1 (mkGateText (preprocess s)) = false) →
      basic_cleanup (basic_cleanup s) = basic_cleanup s := by
  intro s c0 cl _ _ hlast hpunct hgate
  obtain ⟨s0, rfl⟩ := getLast?_to_append s cl hlast
  have hclws : pyWsB cl = false := by rcases hpunct with rfl | rfl | rfl <;> rfl
  have hclup : upperNat cl = cl := by rcases hpunct with rfl | rfl | rfl <;> rfl
  have htr : trimWs (s0 ++ [cl]) = (s0.dropWhile pyWsB) ++ [cl] := trim_of_ends hclws s0
  cases hw : s0.dropWhile pyWsB with
  | nil =>
    have htr1 : trimWs (s0 ++ [cl]) = cl :: [] := by rw [htr, hw]; rfl
    have hpre : preprocess (s0 ++ [cl]) = upperNat cl :: [] :=
      preprocess_of_trim_cons htr1 (by rw [hclup]; simp) hpunct
    rw [hclup] at hpre
    have hcl1 : basic_cleanup (s0 ++ [cl]) = [cl] := by
      rw [basic_cleanup_no_gate _ hgate, hpre]
    rw [hcl1]
    have htr2 : trimWs ([cl] : Str) = cl :: [] := by
      have := trim_of_ends hclws []
      simpa using this
    have hpre2 : preprocess ([cl] : Str) = upperNat cl :: [] :=
      preprocess_of_trim_cons htr2 (by rw [hclup]; simp) hpunct
    rw [hclup] at hpre2
    have hgate2 : ∀ e ∈ replacements,
        substrB e.1 (mkGateText (preprocess ([cl] : Str))) = false := by
      rw [hpre2, ← hpre]
      exact hgate
    rw [basic_cleanup_no_gate _ hgate2, hpre2]
  | cons h0 w' =>
    have hh0 : pyWsB h0 = false := dropWhile_head_false s0 h0 w' hw
    have htr1 : trimWs (s0 ++ [cl]) = h0 :: (w' ++ [cl]) := by rw [htr, hw]; rfl
    have hlast2 : (upperNat h0 :: (w' ++ [cl]) : Str).getLast? = some cl := by
      rw [show (upperNat h0 :: (w' ++ [cl]) : Str) = (upperNat h0 :: w') ++ [cl] from
        (List.cons_append _ _ _).symm]
      exact List.getLast?_concat _
    have hpre : preprocess (s0 ++ [cl]) = upperNat h0 :: (w' ++ [cl]) :=
      preprocess_of_trim_cons htr1 hlast2 hpunct
    have hcl1 : basic_cleanup (s0 ++ [cl]) = upperNat h0 :: (w' ++ [cl]) := by
      rw [basic_cleanup_no_gate _ hgate, hpre]
    rw [hcl1]
    have hh0' : pyWsB (upperNat h0) = false := pyWsB_upperNat hh0
    have hdw : (upperNat h0 :: w' : Str).dropWhile pyWsB = upperNat h0 :: w' := by
      rw [List.dropWhile_cons, if_neg (by simp [hh0'])]
    have htrr2 : trimWs (upperNat h0 :: (w' ++ [cl])) = upperNat h0 :: (w' ++ [cl]) := by
      rw [show (upperNat h0 :: (w' ++ [cl]) : Str) = (upperNat h0 :: w') ++ [cl] from
        (List.cons_append _ _ _).symm]
      rw [trim_of_ends hclws _, hdw, List.cons_append]
    have hlast3 : (upperNat (upperNat h0) :: (w' ++ [cl]) : Str).getLast? = some cl := by
      rw [upperNat_idem]
      exact hlast2
    have hprer : preprocess (upperNat h0 :: (w' ++ [cl]))
        = upperNat (upperNat h0) :: (w' ++ [cl]) :=
      preprocess_of_trim_cons htrr2 hlast3 hpunct
    rw [upperNat_idem] at hprer
    have hgate2 : ∀ e ∈ replacements,
        substrB e.1 (mkGateText (preprocess (upperNat h0 :: (w' ++ [cl])))) = false := by
      rw [hprer, ← hpre]
      exact hgate
    rw [basic_cleanup_no_gate _ hgate2, hprer]

/-- Witness for C9 amended at the concrete clean input `"Hello."`. -/
theorem C9_witness :
    basic_cleanup (basic_cleanup (codes "Hello.")) = basic_cleanup (codes "Hello.") :=
  C9_idempotent_on_clean (codes "Hello.") 72 46 (by decide) (by decide)
    (by decide) (by decide) (by decide)

/-! ### Claim C10: stripping with an empty recipient name -/

theorem ciStarts_eq_starts : ∀ (pat s : Str),
    ciStarts pat s = startsWithL (lowerS pat) (lowerS s) := by
  intro pat
  induction pat with
  | nil => intro s; rfl
  | cons a as ih =>
    intro s
    cases s with
    | nil => rfl
    | cons b bs =>
      show ciStarts (a :: as) (b :: bs)
        = startsWithL (lowerNat a :: lowerS as) (lowerNat b :: lowerS bs)
      simp only [ciStarts, startsWithL, ih bs]

theorem startsWithL_self_append : ∀ (l x : Str), startsWithL l (l ++ x) = true := by
  intro l x
  induction l with
  | nil => rfl
  | cons a as ih => simpa [startsWithL] using ih

theorem lowerS_append (u v : Str) : lowerS (u ++ v) = lowerS u ++ lowerS v :=
  List.map_append lowerNat u v

/-- A case-insensitive literal consumes exactly a text chunk with the same
lower-casing. -/
theorem runLit_of_lower (pat v x : Str) (hv : lowerS v = lowerS pat) :
    runRE (.lit pat) (v ++ x) = [x] := by
  have hlen : pat.length = v.length := by
    have := congrArg List.length hv
    simpa [lowerS] using this.symm
  have hci : ciStarts pat (v ++ x) = true := by
    rw [ciStarts_eq_starts, lowerS_append, hv]
    exact startsWithL_self_append _ _
  simp only [runRE, hci, if_true, hlen]
  rw [List.drop_left]

theorem runLit_ne (pat v x : Str)
    (hne : startsWithL (lowerS pat) (lowerS v ++ lowerS x) = false) :
    runRE (.lit pat) (v ++ x) = [] := by
  have hci : ciStarts pat (v ++ x) = false := by
    rw [ciStarts_eq_starts, lowerS_append]
    exact hne
  simp [runRE, hci]

/-- The four verbs of the alternation: when the text starts with (a
case-variant of) one of them, the alternation matches exactly that verb. -/
theorem verbAlt_run (v x : Str)
    (hv : lowerS v = codes "send" ∨ lowerS v = codes "message" ∨
          lowerS v = codes "tell" ∨ lowerS v = codes "text") :
    runRE verbAltRE (v ++ x) = [x] := by
  have hrun : runRE verbAltRE (v ++ x)
      = runRE (.lit (codes "send")) (v ++ x) ++
        (runRE (.lit (codes "message")) (v ++ x) ++
         (runRE (.lit (codes "tell")) (v ++ x) ++
          runRE (.lit (codes "text")) (v ++ x))) := rfl
  rcases hv with hv | hv | hv | hv
  · rw [hrun, runLit_of_lower (codes "send") v x (hv.trans (by decide))
      , runLit_ne (codes "message") v x (by rw [hv]; show startsWithL [109,101,115,115,97,103,101] ([115,101,110,100] ++ lowerS x) = false; simp [startsWithL])
      , runLit_ne (codes "tell") v x (by rw [hv]; show startsWithL [116,101,108,108] ([115,101,110,100] ++ lowerS x) = false; simp [startsWithL])
      , runLit_ne (codes "text") v x (by rw [hv]; show startsWithL [116,101,120,116] ([115,101,110,100] ++ lowerS x) = false; simp [startsWithL])
      ]
    simp
  · rw [hrun, runLit_of_lower (codes "message") v x (hv.trans (by decide))
      , runLit_ne (codes "send") v x (by rw [hv]; show startsWithL [115,101,110,100] ([109,101,115,115,97,103,101] ++ lowerS x) = false; simp [startsWithL])
      , runLit_ne (codes "tell") v x (by rw [hv]; show startsWithL [116,101,108,108] ([109,101,115,115,97,103,101] ++ lowerS x) = false; simp [startsWithL])
      , runLit_ne (codes "text") v x (by rw [hv]; show startsWithL [116,101,120,116] ([109,101,115,115,97,103,101] ++ lowerS x) = false; simp [startsWithL])
      ]
    simp
  · rw [hrun, runLit_of_lower (codes "tell") v x (hv.trans (by decide))
      , runLit_ne (codes "send") v x (by rw [hv]; show startsWithL [115,101,110,100] ([116,101,108,108] ++ lowerS x) = false; simp [startsWithL])
      , runLit_ne (codes "message") v x (by rw [hv]; show startsWithL [109,101,115,115,97,103,101] ([116,101,108,108] ++ lowerS x) = false; simp [startsWithL])
      , runLit_ne (codes "text") v x (by rw [hv]; show startsWithL [116,101,120,116] ([116,101,108,108] ++ lowerS x) = false; simp [startsWithL])
      ]
    simp
  · rw [hrun, runLit_of_lower (codes "text") v x (hv.trans (by decide))
      , runLit_ne (codes "send") v x (by rw [hv]; show startsWithL [115,101,110,100] ([116,101,120,116] ++ lowerS x) = false; simp [startsWithL])
      , runLit_ne (codes "message") v x (by rw [hv]; show startsWithL [109,101,115,115,97,103,101] ([116,101,120,116] ++ lowerS x) = false; simp [startsWithL])
      , runLit_ne (codes "tell") v x (by rw [hv]; show startsWithL [116,101,108,108] ([116,101,120,116] ++ lowerS x) = false; simp [startsWithL])
      ]
    simp

theorem gDrops_succ (s : Str) (k : Nat) :
    gDrops s (k + 1) = s.drop (k + 1) :: (List.range k).map (fun i => s.drop (k - i)) := by
  unfold gDrops
  rw [List.range_succ_eq_map]
  simp [Function.comp, Nat.succ_sub_succ]

theorem takeWhile_ws_run : ∀ (w rest : Str),
    (∀ c ∈ w, pyWsB c = true) → (∀ c, rest.head? = some c → pyWsB c = false) →
    (w ++ rest).takeWhile pyWsB = w := by
  intro w
  induction w with
  | nil =>
    intro rest _ hr
    cases rest with
    | nil => rfl
    | cons r t => simp [List.takeWhile_cons, hr r rfl]
  | cons a w' ih =>
    intro rest hw hr
    simp only [List.cons_append, List.takeWhile_cons, hw a (List.mem_cons_self _ _),
      if_true]
    rw [ih rest (fun c hc => hw c (List.mem_cons_of_mem _ hc)) hr]

theorem plus_ws_run {w rest : Str} (hw : w ≠ [])
    (hwall : ∀ c ∈ w, pyWsB c = true)
    (hr : ∀ c, rest.head? = some c → pyWsB c = false) :
    ∃ more, runRE (.plusCls pyWsB) (w ++ rest) = rest :: more := by
  obtain ⟨a, w', rfl⟩ := List.exists_cons_of_ne_nil hw
  have htw : ((a :: w') ++ rest).takeWhile pyWsB = a :: w' :=
    takeWhile_ws_run _ _ hwall hr
  show ∃ more,
    gDrops ((a :: w') ++ rest) (((a :: w') ++ rest).takeWhile pyWsB).length = rest :: more
  rw [htw, show (a :: w' : Str).length = w'.length + 1 from rfl, gDrops_succ]
  refine ⟨(List.range w'.length).map
    (fun i => List.drop (w'.length - i) ((a :: w') ++ rest)), ?_⟩
  congr 1
  simp only [List.cons_append, List.drop_succ_cons, List.drop_left]

/-- The part of `pat1 ""` after the optional `to`: the empty escaped name,
`\s*`, the optional `that|saying|:` and a final `\s*` — all total. -/
def after2RE : RE :=
  .seq (.lit ([] : Str)) (.seq (.starCls pyWsB) (.seq thatOptRE (.starCls pyWsB)))

/-- The part of `pat1 ""` after the verb and its whitespace. -/
def tailRE : RE := .seq toOptRE after2RE

theorem pat1_empty_run {v w rest : Str}
    (hv : lowerS v = codes "send" ∨ lowerS v = codes "message" ∨
          lowerS v = codes "tell" ∨ lowerS v = codes "text")
    (hw : w ≠ []) (hwall : ∀ c ∈ w, pyWsB c = true)
    (hr : ∀ c, rest.head? = some c → pyWsB c = false) :
    ∃ more, runRE (pat1 []) (v ++ (w ++ rest)) = runRE tailRE rest ++ more := by
  have h1 : runRE (pat1 []) (v ++ (w ++ rest))
      = seqRun (runRE (.seq (.plusCls pyWsB) tailRE))
          (runRE verbAltRE (v ++ (w ++ rest))) := rfl
  rw [h1, verbAlt_run v (w ++ rest) hv]
  rw [show seqRun (runRE (.seq (.plusCls pyWsB) tailRE)) [w ++ rest]
      = runRE (.seq (.plusCls pyWsB) tailRE) (w ++ rest) ++ [] from rfl,
    List.append_nil]
  obtain ⟨more1, hplus⟩ := plus_ws_run hw hwall hr
  rw [show runRE (.seq (.plusCls pyWsB) tailRE) (w ++ rest)
      = seqRun (runRE tailRE) (runRE (.plusCls pyWsB) (w ++ rest)) from rfl, hplus]
  exact ⟨seqRun (runRE tailRE) more1, rfl⟩

theorem tail_to_strip {a b : Nat} {w2 rest2 : Str}
    (ha : lowerNat a = 116) (hb : lowerNat b = 111)
    (hw2 : w2 ≠ []) (hw2all : ∀ c ∈ w2, pyWsB c = true)
    (hr2 : ∀ c, rest2.head? = some c → pyWsB c = false) :
    ∃ r0 more, runRE tailRE (a :: b :: (w2 ++ rest2)) = r0 :: more ∧
      r0 ∈ runRE after2RE rest2 := by
  have hlit : runRE (.lit (codes "to")) (a :: b :: (w2 ++ rest2)) = [w2 ++ rest2] := by
    have hci : ciStarts (codes "to") (a :: b :: (w2 ++ rest2)) = true := by
      show ciStarts [116, 111] (a :: b :: (w2 ++ rest2)) = true
      simp only [ciStarts, ha, hb]
      decide
    simp only [runRE, hci, if_true]
    rfl
  obtain ⟨more2, hplus⟩ := plus_ws_run hw2 hw2all hr2
  have hseq : runRE (.seq (.lit (codes "to")) (.plusCls pyWsB)) (a :: b :: (w2 ++ rest2))
      = rest2 :: more2 := by
    show seqRun (runRE (.plusCls pyWsB))
      (runRE (.lit (codes "to")) (a :: b :: (w2 ++ rest2))) = rest2 :: more2
    rw [hlit]
    show runRE (.plusCls pyWsB) (w2 ++ rest2) ++ [] = rest2 :: more2
    rw [hplus, List.append_nil]
  have htopt : runRE toOptRE (a :: b :: (w2 ++ rest2))
      = (rest2 :: more2) ++ [a :: b :: (w2 ++ rest2)] := by
    show runRE (.seq (.lit (codes "to")) (.plusCls pyWsB)) (a :: b :: (w2 ++ rest2))
        ++ [a :: b :: (w2 ++ rest2)] = _
    rw [hseq]
  have hane : runRE after2RE rest2 ≠ [] := runRE_total_ne_nil after2RE (by rfl) rest2
  obtain ⟨r0, rs, hr0⟩ := List.exists_cons_of_ne_nil hane
  refine ⟨r0, rs ++ seqRun (runRE after2RE) (more2 ++ [a :: b :: (w2 ++ rest2)]), ?_, ?_⟩
  · show seqRun (runRE after2RE) (runRE toOptRE (a :: b :: (w2 ++ rest2))) = _
    rw [htopt, List.cons_append]
    show runRE after2RE rest2
        ++ seqRun (runRE after2RE) (more2 ++ [a :: b :: (w2 ++ rest2)]) = _
    rw [hr0, List.cons_append]
  · exact hr0 ▸ List.mem_cons_self _ _

/-- C10: with an empty recipient name — as the preview endpoint passes when
no recipient resolves — the first addressing pattern still strips a leading
send/message/tell/text verb (in any casing) together with its whitespace,
and also an optional following `to`: the final message body is the trim of
a suffix of what follows the verb (respectively of what follows `to`). -/
theorem C10_empty_recipient_strip :
    (∀ (v w rest : Str),
      (lowerS v = codes "send" ∨ lowerS v = codes "message" ∨
       lowerS v = codes "tell" ∨ lowerS v = codes "text") →
      w ≠ [] → (∀ c ∈ w, pyWsB c = true) →
      (∀ c, rest.head? = some c → pyWsB c = false) →
      (∃ r, r <:+ rest ∧ extract_message_content (v ++ (w ++ rest)) [] = trimWs r) ∧
      (∀ (a b : Nat) (w2 rest2 : Str),
        rest = a :: b :: (w2 ++ rest2) → lowerNat a = 116 → lowerNat b = 111 →
        w2 ≠ [] → (∀ c ∈ w2, pyWsB c = true) →
        (∀ c, rest2.head? = some c → pyWsB c = false) →
        ∃ r, r <:+ rest2 ∧ extract_message_content (v ++ (w ++ rest)) [] = trimWs r)) ∧
    (∀ (corrected : Str) (hint : Option Str) (cfg : Config),
      resolve_recipient hint cfg = none →
      preview_body corrected hint cfg = extract_message_content corrected []) := by
  constructor
  · intro v w rest hv hw hwall hr
    obtain ⟨more, hrun⟩ := pat1_empty_run hv hw hwall hr
    constructor
    · have hne : runRE tailRE rest ≠ [] := runRE_total_ne_nil tailRE (by rfl) rest
      obtain ⟨r0, rs, hr0⟩ := List.exists_cons_of_ne_nil hne
      have hsub : reSubOnce (pat1 []) (v ++ (w ++ rest)) = r0 := by
        unfold reSubOnce
        rw [hrun, hr0, List.cons_append]
      have hmem : r0 ∈ runRE tailRE rest := hr0 ▸ List.mem_cons_self _ _
      have hsuf0 : r0 <:+ rest := runRE_suffix tailRE rest r0 hmem
      refine ⟨reSubOnce pat3 (reSubOnce pat2 r0), ?_, ?_⟩
      · exact ((reSubOnce_suffix pat3 _).trans (reSubOnce_suffix pat2 r0)).trans hsuf0
      · simp only [extract_message_content, msgPatterns, List.foldl_cons, List.foldl_nil]
        rw [hsub]
    · intro a b w2 rest2 hrest ha hb hw2 hw2all hr2
      subst hrest
      obtain ⟨r0, more', hcons, hmem⟩ := tail_to_strip ha hb hw2 hw2all hr2
      have hsub : reSubOnce (pat1 []) (v ++ (w ++ (a :: b :: (w2 ++ rest2)))) = r0 := by
        unfold reSubOnce
        rw [hrun, hcons, List.cons_append]
      have hsuf0 : r0 <:+ rest2 := runRE_suffix after2RE rest2 r0 hmem
      refine ⟨reSubOnce pat3 (reSubOnce pat2 r0), ?_, ?_⟩
      · exact ((reSubOnce_suffix pat3 _).trans (reSubOnce_suffix pat2 r0)).trans hsuf0
      · simp only [extract_message_content, msgPatterns, List.foldl_cons, List.foldl_nil]
        rw [hsub]
  · intro corrected hint cfg h
    unfold preview_body
    rw [h]

/-- Witness for C10 at `"Send to bob"` (verb `Send`, one space, then
`to bob`): the body is the trim of a suffix of `"bob"`. -/
theorem C10_witness :
    ∃ r, r <:+ codes "bob" ∧
      extract_message_content
        (codes "Send" ++ ([32] ++ (116 :: 111 :: ([32] ++ codes "bob")))) []
        = trimWs r :=
  (C10_empty_recipient_strip.1 (codes "Send") [32] (116 :: 111 :: ([32] ++ codes "bob"))
      (by decide) (by decide) (by decide)
      (by intro c hc; rw [List.head?_cons] at hc; cases hc; rfl)).2
    116 111 [32] (codes "bob") rfl (by decide) (by decide) (by decide) (by decide)
    (by intro c hc;
        rw [show (codes "bob").head? = some 98 from rfl] at hc; cases hc; rfl)
